import Mathlib

/-!
Verification of the chemprop ensemble-training pipeline
(`chemprop/train/run_training.py`, `chemprop/train/train.py`, `pred_r2.py`).

The Python source is shallowly embedded: numpy arrays of fixed shape become
functions out of index types, Python lists become Lean lists, floats become
exact rationals or reals, and the stateful training loops become explicit
state-passing recursions.  Each embedded definition mirrors one construct of
the source; theorems below relate them to the specified behaviour.
-/

namespace Chemprop

/-! ## Python `range(start, stop, step)`

`train.py` iterates `for i in trange(0, num_iters, iter_size)`.  For a
positive step, `range(0, stop, step)` enumerates `0, step, 2*step, ...`
while below `stop`; its length is `⌈stop / step⌉`. -/

/-- Python `range(0, stop, step)` for a positive `step`:
the list `[0, step, 2*step, ...]` of all multiples of `step` below `stop`. -/
def pyRange0 (stop step : ℕ) : List ℕ :=
  List.range' 0 ((stop + step - 1) / step) step

/-! ## `train` (chemprop/train/train.py)

With `args.class_balance` disabled the epoch loop is:

    num_iters = len(data) // args.batch_size * args.batch_size
    for i in trange(0, num_iters, iter_size):
        if i + args.batch_size > len(data):
            break
        mol_batch = MoleculeDataset(data[i:i + args.batch_size])
        ...
        n_iter += len(mol_batch)
    return n_iter

The gradient step mutates the model but not the iteration count, so the
embedding tracks the data slicing and the `n_iter` accumulator. -/

/-- The body of the epoch loop of `train`: visits the iteration indices in
order, stops (Python `break`) as soon as `i + batch_size > len(data)`, and
otherwise adds the length of the batch `data[i : i + batch_size]` to
`n_iter`. -/
def trainLoopGo (dataLen b : ℕ) : List ℕ → ℕ → ℕ
  | [], n_iter => n_iter
  | i :: rest, n_iter =>
    if dataLen < i + b then n_iter
    else trainLoopGo dataLen b rest (n_iter + (min b (dataLen - i)))

/-- One epoch of `train` with class balancing disabled: `num_iters` whole
batches, early `break` when a batch would overrun, returning the updated
`n_iter`.  `data[i:i+b]` has length `min b (len - i)`. -/
def trainEpochIters (dataLen b n_iter : ℕ) : ℕ :=
  trainLoopGo dataLen b (pyRange0 (dataLen / b * b) b) n_iter

/-- Running the loop body over the index list `[j, j+b, ..., j+(k-1)b]` never
hits the `break` and adds exactly `k * b` to `n_iter`, provided the last batch
still fits: `j + k*b ≤ dataLen`. -/
theorem trainLoopGo_range' (dataLen b : ℕ) :
    ∀ (k j n_iter : ℕ), j + k * b ≤ dataLen →
      trainLoopGo dataLen b (List.range' j k b) n_iter = n_iter + k * b := by
  intro k
  induction k with
  | zero => intro j n_iter _; simp [trainLoopGo]
  | succ k ih =>
    intro j n_iter h
    have hstep : j + b ≤ dataLen := by
      have : b ≤ (k + 1) * b := Nat.le_mul_of_pos_left b (Nat.succ_pos k)
      omega
    rw [List.range'_succ]
    rw [trainLoopGo]
    rw [if_neg (by omega)]
    have hmin : min b (dataLen - j) = b := by omega
    rw [hmin]
    rw [ih (j + b) (n_iter + b) (by rw [Nat.succ_mul] at h; omega)]
    ring

/-- Claim C7: with class balancing disabled and batch size `b ≥ 1`, one epoch
of `train` processes exactly `(len(data) // b) * b` examples — returning
`n_iter` increased by exactly that amount — and the skipped trailing examples
number `len(data) mod b`. -/
theorem train_whole_batches (dataLen b n_iter : ℕ) (hb : 1 ≤ b) :
    trainEpochIters dataLen b n_iter = n_iter + dataLen / b * b ∧
      dataLen - dataLen / b * b = dataLen % b := by
  refine ⟨?_, ?_⟩
  · unfold trainEpochIters pyRange0
    have hcount : (dataLen / b * b + b - 1) / b = dataLen / b := by
      have h1 : dataLen / b * b + b - 1 = (b - 1) + b * (dataLen / b) := by
        rw [Nat.mul_comm]; omega
      rw [h1, Nat.add_mul_div_left _ _ (by omega : 0 < b),
        Nat.div_eq_of_lt (by omega)]
      omega
    rw [hcount]
    exact trainLoopGo_range' dataLen b (dataLen / b) 0 n_iter
      (by simpa using Nat.div_mul_le_self dataLen b)
  · have h := Nat.div_add_mod dataLen b
    rw [Nat.mul_comm] at h
    omega

/-- Witness for `train_whole_batches`: a dataset of 10 examples with batch
size 3 trains on 9 examples, skipping 1. -/
theorem train_whole_batches_witness :
    trainEpochIters 10 3 0 = 0 + 10 / 3 * 3 ∧ 10 - 10 / 3 * 3 = 10 % 3 :=
  train_whole_batches 10 3 0 (by decide)

/-! ## `run_training`: ensemble test-set evaluation (run_training.py)

Numpy arrays of fixed shape `(r, c)` — `r = len(test_smiles)` test molecules,
`c = args.num_tasks` tasks — are embedded as functions `Fin r → Fin c → ℚ`.
The per-model test predictions `test_preds` produced by
`predict(model, test_data, ...)` for ensemble member `m` are abstracted as a
function `preds m`; `evaluate_predictions` and the targets are opaque
collaborators, abstracted as parameters. -/

/-- `np.zeros((r, c))`. -/
def npZeros (r c : ℕ) : Fin r → Fin c → ℚ := fun _ _ => 0

/-- Elementwise addition of two `(r, c)` arrays (numpy `+`, `+=`). -/
def npAdd {r c : ℕ} (A B : Fin r → Fin c → ℚ) : Fin r → Fin c → ℚ :=
  fun i j => A i j + B i j

/-- `sum_test_preds` after the ensemble loop of `run_training`: starting from
`np.zeros((len(test_smiles), args.num_tasks))`, the loop over
`model_idx in range(args.ensemble_size)` executes
`sum_test_preds += np.array(test_preds)` guarded by `len(test_preds) != 0`
(the prediction list has one row per test molecule, so its length is `r`). -/
def sumTestPreds (r c n : ℕ) (preds : ℕ → Fin r → Fin c → ℚ) :
    Fin r → Fin c → ℚ :=
  (List.range n).foldl
    (fun acc m => if r ≠ 0 then npAdd acc (preds m) else acc) (npZeros r c)

/-- `avg_test_preds = sum_test_preds / args.ensemble_size`. -/
def avgTestPreds (r c n : ℕ) (preds : ℕ → Fin r → Fin c → ℚ) :
    Fin r → Fin c → ℚ :=
  fun i j => sumTestPreds r c n preds i j / n

/-- The value returned by `run_training`:
`ensemble_scores = evaluate_predictions(preds=avg_test_preds.tolist(),
targets=test_targets, ...)`, with `evaluate_predictions` (specialised to its
fixed metric, task count and dataset type) and the targets left opaque. -/
def runTrainingScores {T S : Type} (r c n : ℕ)
    (preds : ℕ → Fin r → Fin c → ℚ) (targets : T)
    (evaluatePredictions : (Fin r → Fin c → ℚ) → T → S) : S :=
  evaluatePredictions (avgTestPreds r c n preds) targets

/-- The accumulated `sum_test_preds` entry is the plain sum of the per-model
predictions (for a non-empty test set the `len(test_preds) != 0` guard always
passes). -/
theorem sumTestPreds_entry (r c n : ℕ) (preds : ℕ → Fin r → Fin c → ℚ)
    (hr : r ≠ 0) (i : Fin r) (j : Fin c) :
    sumTestPreds r c n preds i j = ∑ m ∈ Finset.range n, preds m i j := by
  induction n with
  | zero => simp [sumTestPreds, npZeros]
  | succ n ih =>
    unfold sumTestPreds at ih ⊢
    rw [List.range_succ, List.foldl_append, List.foldl_cons, List.foldl_nil,
      if_pos hr, Finset.sum_range_succ, ← ih]
    rfl

/-- Claim C1: for ensemble size `n ≥ 1` and a non-empty test set, the final
ensemble evaluation is performed on the element-wise arithmetic mean of the
`n` models' test predictions (running sum divided by `n`), and `run_training`
returns the resulting ensemble scores. -/
theorem run_training_ensemble_mean {T S : Type} (r c n : ℕ)
    (preds : ℕ → Fin r → Fin c → ℚ) (targets : T)
    (evaluatePredictions : (Fin r → Fin c → ℚ) → T → S)
    (hn : 1 ≤ n) (hr : 1 ≤ r) :
    runTrainingScores r c n preds targets evaluatePredictions =
      evaluatePredictions
        (fun i j => (∑ m ∈ Finset.range n, preds m i j) / n) targets := by
  unfold runTrainingScores avgTestPreds
  congr 1
  funext i j
  rw [sumTestPreds_entry r c n preds (by omega) i j]

/-- Witness for `run_training_ensemble_mean`: two models on a single test
molecule and task, predicting 1 and 3; the ensemble is evaluated on their
mean 2. -/
theorem run_training_ensemble_mean_witness :
    runTrainingScores 1 1 2 (fun m _ _ => 2 * m + 1) () (fun A _ => A 0 0) =
      (fun (A : Fin 1 → Fin 1 → ℚ) (_ : Unit) => A 0 0)
        (fun _ _ => (∑ m ∈ Finset.range 2, (2 * (m : ℚ) + 1)) / 2) () :=
  run_training_ensemble_mean 1 1 2 (fun m _ _ => 2 * m + 1) ()
    (fun A _ => A 0 0) (by decide) (by decide)

/-! ## `run_training`: best-validation checkpointing (run_training.py)

Per ensemble member the code saves an initial checkpoint before the epoch
loop (`save_checkpoint(os.path.join(save_dir, 'model.pt'), ...)`, commented
"Ensure that model is saved in correct location for evaluation if 0 epochs"),
then for each epoch trains and evaluates, and re-saves the checkpoint exactly
when

    args.minimize_score and avg_val_score < best_score or \
        not args.minimize_score and avg_val_score > best_score

with `best_score` starting at `float('inf')` (minimising) or `-float('inf')`
(maximising).  The checkpoint on disk is embedded as an `Option ℕ`: `none` is
the initial untrained model, `some e` the model as saved after the training
step of epoch `e`.  `±float('inf')` is embedded as `bestScore = none`, which
every finite score strictly improves on, exactly as in the float order. -/

/-- State of one ensemble member's epoch loop: `best_score`, `best_epoch`,
and the checkpoint currently on disk. -/
structure EpochState where
  bestScore : Option ℚ
  bestEpoch : ℕ
  saved : Option ℕ
  deriving Repr, DecidableEq

/-- The improvement test guarding `save_checkpoint` inside the epoch loop.
`best = none` stands for the initial `float('inf')`/`-float('inf')`, which
any finite score strictly beats. -/
def improves (minimize : Bool) (avg : ℚ) : Option ℚ → Bool
  | none => true
  | some best => if minimize then decide (avg < best) else decide (best < avg)

/-- One iteration of the epoch loop: on strict improvement of the average
validation score, update `best_score`/`best_epoch` and re-save the
checkpoint; otherwise leave all three unchanged. -/
def epochStep (minimize : Bool) (valScore : ℕ → ℚ) (st : EpochState)
    (epoch : ℕ) : EpochState :=
  if improves minimize (valScore epoch) st.bestScore then
    { bestScore := some (valScore epoch), bestEpoch := epoch,
      saved := some epoch }
  else st

/-- The state before the epoch loop: infinite `best_score`, `best_epoch = 0`,
and the initial untrained checkpoint already saved. -/
def initEpochState : EpochState :=
  { bestScore := none, bestEpoch := 0, saved := none }

/-- `for epoch in trange(args.epochs)`: the epoch loop run for `E` epochs,
where `valScore e` is the average validation score (`np.nanmean(val_scores)`)
measured after the training step of epoch `e`. -/
def runEpochs (minimize : Bool) (valScore : ℕ → ℚ) : ℕ → EpochState
  | 0 => initEpochState
  | E + 1 => epochStep minimize valScore (runEpochs minimize valScore E) E

/-- `load_checkpoint(os.path.join(save_dir, 'model.pt'), ...)`: the model
reloaded from disk after the epoch loop. -/
def checkpointModel {M : Type} (initModel : M) (modelAfter : ℕ → M) :
    Option ℕ → M
  | none => initModel
  | some e => modelAfter e

/-- `test_preds = predict(model, test_data, ...)` where `model` is the
reloaded checkpoint; `predict` and the per-epoch trained models are opaque
(`modelAfter e` is the model as it stood after the training step of
epoch `e`). -/
def memberTestPreds {M P : Type} (initModel : M) (modelAfter : ℕ → M)
    (predictF : M → P) (minimize : Bool) (valScore : ℕ → ℚ) (epochs : ℕ) :
    P :=
  predictF
    (checkpointModel initModel modelAfter
      (runEpochs minimize valScore epochs).saved)

/-- After `E ≥ 1` epochs the loop state records a best epoch `e`: the saved
checkpoint is the one from epoch `e`, whose score is optimal among all `E`
epochs and strictly better than every earlier epoch's (first occurrence of
the optimum, since the update requires strict improvement). -/
theorem runEpochs_saved_spec (minimize : Bool) (valScore : ℕ → ℚ) :
    ∀ E, 1 ≤ E → ∃ e, e < E ∧
      (runEpochs minimize valScore E).saved = some e ∧
      (runEpochs minimize valScore E).bestScore = some (valScore e) ∧
      (runEpochs minimize valScore E).bestEpoch = e ∧
      (∀ f, f < E →
        if minimize then valScore e ≤ valScore f
        else valScore f ≤ valScore e) ∧
      (∀ f, f < e →
        if minimize then valScore e < valScore f
        else valScore f < valScore e) := by
  intro E
  induction E with
  | zero => intro h; exact absurd h (by decide)
  | succ E ih =>
    intro _
    rcases Nat.eq_zero_or_pos E with hE | hE
    · subst hE
      refine ⟨0, by omega, ?_, ?_, ?_, ?_, ?_⟩
      · simp [runEpochs, epochStep, initEpochState, improves]
      · simp [runEpochs, epochStep, initEpochState, improves]
      · simp [runEpochs, epochStep, initEpochState, improves]
      · intro f hf
        have hf0 : f = 0 := by omega
        subst hf0
        cases minimize <;> simp
      · intro f hf; omega
    · obtain ⟨e, he, hsaved, hbest, hbepoch, hall, hstrict⟩ := ih hE
      have hrun : runEpochs minimize valScore (E + 1) =
          epochStep minimize valScore (runEpochs minimize valScore E) E := rfl
      cases minimize with
      | false =>
        by_cases hlt : valScore e < valScore E
        · refine ⟨E, by omega, ?_, ?_, ?_, ?_, ?_⟩
          · rw [hrun]; simp [epochStep, improves, hbest, hlt]
          · rw [hrun]; simp [epochStep, improves, hbest, hlt]
          · rw [hrun]; simp [epochStep, improves, hbest, hlt]
          · intro f hf
            rcases Nat.lt_succ_iff_lt_or_eq.mp hf with hf' | hf'
            · have := hall f hf'
              simp only [if_neg Bool.false_ne_true] at this ⊢
              linarith
            · subst hf'; simp
          · intro f hf
            have := hall f hf
            simp only [if_neg Bool.false_ne_true] at this ⊢
            linarith
        · refine ⟨e, by omega, ?_, ?_, ?_, ?_, ?_⟩
          · rw [hrun]; simpa [epochStep, improves, hbest, hlt] using hsaved
          · rw [hrun]; simpa [epochStep, improves, hbest, hlt] using hbest
          · rw [hrun]; simpa [epochStep, improves, hbest, hlt] using hbepoch
          · intro f hf
            rcases Nat.lt_succ_iff_lt_or_eq.mp hf with hf' | hf'
            · exact hall f hf'
            · subst hf'
              simp only [if_neg Bool.false_ne_true]
              linarith [not_lt.mp hlt]
          · exact hstrict
      | true =>
        by_cases hlt : valScore E < valScore e
        · refine ⟨E, by omega, ?_, ?_, ?_, ?_, ?_⟩
          · rw [hrun]; simp [epochStep, improves, hbest, hlt]
          · rw [hrun]; simp [epochStep, improves, hbest, hlt]
          · rw [hrun]; simp [epochStep, improves, hbest, hlt]
          · intro f hf
            rcases Nat.lt_succ_iff_lt_or_eq.mp hf with hf' | hf'
            · have := hall f hf'
              simp at this ⊢
              linarith
            · subst hf'; simp
          · intro f hf
            have := hall f hf
            simp at this ⊢
            linarith
        · refine ⟨e, by omega, ?_, ?_, ?_, ?_, ?_⟩
          · rw [hrun]; simpa [epochStep, improves, hbest, hlt] using hsaved
          · rw [hrun]; simpa [epochStep, improves, hbest, hlt] using hbest
          · rw [hrun]; simpa [epochStep, improves, hbest, hlt] using hbepoch
          · intro f hf
            rcases Nat.lt_succ_iff_lt_or_eq.mp hf with hf' | hf'
            · exact hall f hf'
            · subst hf'
              simp
              linarith [not_lt.mp hlt]
          · exact hstrict

/-- Claim C2: for each ensemble member the test-set predictions come from the
checkpoint of the epoch with the best average validation score seen so far
(smallest when minimising, largest otherwise, updated only on strict
improvement, hence the earliest optimal epoch), and with `args.epochs = 0`
the reload still succeeds, yielding the untrained model saved before the
loop. -/
theorem best_checkpoint_predictions {M P : Type} (initModel : M)
    (modelAfter : ℕ → M) (predictF : M → P) (minimize : Bool)
    (valScore : ℕ → ℚ) (E : ℕ) :
    (E = 0 →
      memberTestPreds initModel modelAfter predictF minimize valScore E =
        predictF initModel) ∧
    (1 ≤ E → ∃ e, e < E ∧
      memberTestPreds initModel modelAfter predictF minimize valScore E =
        predictF (modelAfter e) ∧
      (∀ f, f < E →
        if minimize then valScore e ≤ valScore f
        else valScore f ≤ valScore e) ∧
      (∀ f, f < e →
        if minimize then valScore e < valScore f
        else valScore f < valScore e)) := by
  constructor
  · intro hE; subst hE; rfl
  · intro hE
    obtain ⟨e, he, hsaved, _, _, hall, hstrict⟩ :=
      runEpochs_saved_spec minimize valScore E hE
    refine ⟨e, he, ?_, hall, hstrict⟩
    unfold memberTestPreds
    rw [hsaved]
    rfl

/-- Witness for `best_checkpoint_predictions`: three epochs with validation
RMSE 3, 1, 2; the reloaded checkpoint is the model of epoch 1. -/
theorem best_checkpoint_predictions_witness :
    (3 = 0 →
      memberTestPreds (100 : ℕ) (fun e => e) (fun m => m) true
        (fun e => if e = 0 then 3 else if e = 1 then 1 else 2) 3 = 100) ∧
    (1 ≤ 3 → ∃ e, e < 3 ∧
      memberTestPreds (100 : ℕ) (fun e => e) (fun m => m) true
        (fun e => if e = 0 then 3 else if e = 1 then 1 else 2) 3 = e ∧
      (∀ f, f < 3 →
        if true then
          (fun e => if e = 0 then (3 : ℚ) else if e = 1 then 1 else 2) e ≤
            (fun e => if e = 0 then 3 else if e = 1 then 1 else 2) f
        else (fun e => if e = 0 then 3 else if e = 1 then 1 else 2) f ≤
          (fun e => if e = 0 then 3 else if e = 1 then 1 else 2) e) ∧
      (∀ f, f < e →
        if true then
          (fun e => if e = 0 then (3 : ℚ) else if e = 1 then 1 else 2) e <
            (fun e => if e = 0 then 3 else if e = 1 then 1 else 2) f
        else (fun e => if e = 0 then 3 else if e = 1 then 1 else 2) f <
          (fun e => if e = 0 then 3 else if e = 1 then 1 else 2) e)) :=
  best_checkpoint_predictions (100 : ℕ) (fun e => e) (fun m => m) true
    (fun e => if e = 0 then 3 else if e = 1 then 1 else 2) 3

/-! ## `run_training`: data splitting (run_training.py)

When a separate validation path is supplied but no separate test path, the
code runs

    train_data, _, test_data = split_data(data=data, split_type=...,
        sizes=(0.8, 0.2, 0.0), seed=..., args=..., logger=...)

binding `test_data` to the THIRD portion, whose size fraction is `0.0`. -/

/-- Modelled from the spec: `split_data` (from `chemprop.data.utils`, an
out-of-scope data-loading utility, not among the analysed sources) splits a
dataset into train/validation/test portions according to the size fractions
`sizes`, each portion's length being the corresponding fraction of
`len(data)` truncated to an integer (train gets `int(sizes[0]*n)` elements,
train+val together `int((sizes[0]+sizes[1])*n)`, test the rest).  The random
shuffle only permutes the elements and is irrelevant to portion sizes, so it
is omitted. -/
def split_data {α : Type} (sizes : ℚ × ℚ × ℚ) (data : List α) :
    List α × List α × List α :=
  let n : ℚ := data.length
  let trainSize := (⌊sizes.1 * n⌋).toNat
  let trainValSize := (⌊(sizes.1 + sizes.2.1) * n⌋).toNat
  (data.take trainSize,
    (data.drop trainSize).take (trainValSize - trainSize),
    data.drop trainValSize)

/-- The `elif args.separate_val_path:` branch of `run_training`:
`train_data, _, test_data = split_data(data, ..., sizes=(0.8, 0.2, 0.0), ...)`
— the first portion becomes the training set and the third (fraction `0.0`)
becomes the test set, while the middle portion is discarded. -/
def separateValSplit {α : Type} (data : List α) : List α × List α :=
  let s := split_data (4/5, 1/5, 0) data
  (s.1, s.2.2)

/-- Claim C3 fails on the code: in the separate-validation-path branch the
test set bound by `run_training` is the size-`0.0` third portion of the
split, hence empty for every input dataset — in particular for a non-empty
dataset of five molecules. -/
theorem separate_val_split_test_empty :
    (∀ (data : List ℕ), (separateValSplit data).2 = []) ∧
      separateValSplit [0, 1, 2, 3, 4] = ([0, 1, 2, 3], ([] : List ℕ)) := by
  constructor
  · intro data
    show split_data ((4 : ℚ)/5, (1 : ℚ)/5, (0 : ℚ)) data
      |>.2.2 = []
    unfold split_data
    have h45 : (4 : ℚ)/5 + 1/5 = 1 := by norm_num
    simp only [h45, one_mul]
    rw [Int.floor_natCast, Int.toNat_natCast, List.drop_length]
  · simp only [separateValSplit, split_data, List.length_cons, List.length_nil]
    norm_num
    decide

/-! ## `run_training`: confidence estimation (run_training.py)

After the ensemble evaluation the code runs

    if args.confidence and args.dataset_type == 'regression':
        if args.confidence == 'gaussian': ...
        elif args.confidence == 'tanimoto': ...
        elif args.confidence == 'ensemble':
            x, y = np.var(all_test_preds, axis=2) * -1, \
                   np.abs(avg_test_preds - test_targets)
        confidence_visualizations(args, x=x, y=y)

    if args.confidence and args.dataset_type == 'classification':
        ... reads sum_last_hidden / sum_last_hidden_test ...

`args.confidence` is `None` or a string, embedded as `Option String` with
Python truthiness. -/

/-- Python truthiness of `args.confidence`: `None` and the empty string are
falsy, any other string truthy. -/
def pyTruthy : Option String → Bool
  | none => false
  | some s => !(s == "")

/-- Which body of the regression confidence `if`/`elif` chain executes. -/
inductive ConfBranch
  | gaussianBranch
  | tanimotoBranch
  | ensembleBranch
  | skipped
  deriving Repr, DecidableEq

/-- The regression confidence dispatch: the guard
`args.confidence and args.dataset_type == 'regression'` followed by the
`if`/`elif` chain on the value of `args.confidence`. -/
def regressionConfBranch (confidence : Option String) (datasetType : String) :
    ConfBranch :=
  if pyTruthy confidence && (datasetType == "regression") then
    if confidence == some "gaussian" then ConfBranch.gaussianBranch
    else if confidence == some "tanimoto" then ConfBranch.tanimotoBranch
    else if confidence == some "ensemble" then ConfBranch.ensembleBranch
    else ConfBranch.skipped
  else ConfBranch.skipped

/-- `np.zeros((r, c, n))`: the `all_test_preds` accumulator, ensemble axis
embedded as a `ℕ` index. -/
def npZeros3 (r c : ℕ) : Fin r → Fin c → ℕ → ℚ := fun _ _ _ => 0

/-- Slice assignment `A[:, :, m] = P` on the ensemble axis. -/
def sliceAssign {r c : ℕ} (A : Fin r → Fin c → ℕ → ℚ) (m : ℕ)
    (P : Fin r → Fin c → ℚ) : Fin r → Fin c → ℕ → ℚ :=
  fun i j m' => if m' = m then P i j else A i j m'

/-- `all_test_preds` after the ensemble loop: each iteration runs
`all_test_preds[:, :, model_idx] = np.array(test_preds)` under the
`len(test_preds) != 0` guard. -/
def allTestPreds (r c n : ℕ) (preds : ℕ → Fin r → Fin c → ℚ) :
    Fin r → Fin c → ℕ → ℚ :=
  (List.range n).foldl
    (fun acc m => if r ≠ 0 then sliceAssign acc m (preds m) else acc)
    (npZeros3 r c)

/-- `np.var(A, axis=2)` for an array whose ensemble axis has length `n`:
the mean of the squared deviations from the mean (numpy default `ddof=0`). -/
def npVarAxis2 (n : ℕ) {r c : ℕ} (A : Fin r → Fin c → ℕ → ℚ) :
    Fin r → Fin c → ℚ :=
  fun i j =>
    (∑ m ∈ Finset.range n,
      (A i j m - (∑ k ∈ Finset.range n, A i j k) / n) ^ 2) / n

/-- `x = np.var(all_test_preds, axis=2) * -1` of the `'ensemble'` branch. -/
def ensembleConfX (r c n : ℕ) (preds : ℕ → Fin r → Fin c → ℚ) :
    Fin r → Fin c → ℚ :=
  fun i j => npVarAxis2 n (allTestPreds r c n preds) i j * (-1)

/-- `y = np.abs(avg_test_preds - test_targets)` of the `'ensemble'` branch. -/
def ensembleConfY (r c n : ℕ) (preds : ℕ → Fin r → Fin c → ℚ)
    (targets : Fin r → Fin c → ℚ) : Fin r → Fin c → ℚ :=
  fun i j => |avgTestPreds r c n preds i j - targets i j|

/-- For a non-empty test set, slice `m < n` of the loop-built
`all_test_preds` holds exactly model `m`'s test predictions. -/
theorem allTestPreds_entry (r c n : ℕ) (preds : ℕ → Fin r → Fin c → ℚ)
    (hr : r ≠ 0) (i : Fin r) (j : Fin c) :
    ∀ m, m < n → allTestPreds r c n preds i j m = preds m i j := by
  induction n with
  | zero => intro m hm; omega
  | succ n ih =>
    intro m hm
    unfold allTestPreds at ih ⊢
    rw [List.range_succ, List.foldl_append, List.foldl_cons, List.foldl_nil,
      if_pos hr]
    rcases Nat.lt_succ_iff_lt_or_eq.mp hm with hm' | hm'
    · have hne : m ≠ n := by omega
      simp only [sliceAssign, if_neg hne]
      exact ih m hm'
    · subst hm'
      simp [sliceAssign]

/-- Claim C4: with `args.confidence` set and a regression dataset, the
dispatch selects exactly one branch — `'gaussian'`, `'tanimoto'` or
`'ensemble'` according to the value — and in the `'ensemble'` branch the
confidence for test molecule `i` and task `j` is the negated (population)
variance of the per-model predictions across the ensemble, paired with the
absolute difference between the ensemble-mean prediction and the target. -/
theorem confidence_dispatch_ensemble_variance (r c n : ℕ)
    (preds : ℕ → Fin r → Fin c → ℚ) (targets : Fin r → Fin c → ℚ)
    (hr : 1 ≤ r) (hn : 1 ≤ n) :
    (regressionConfBranch (some "gaussian") "regression" =
        ConfBranch.gaussianBranch ∧
      regressionConfBranch (some "tanimoto") "regression" =
        ConfBranch.tanimotoBranch ∧
      regressionConfBranch (some "ensemble") "regression" =
        ConfBranch.ensembleBranch) ∧
    (∀ i j,
      ensembleConfX r c n preds i j =
        -((∑ m ∈ Finset.range n,
            (preds m i j - (∑ k ∈ Finset.range n, preds k i j) / n) ^ 2)
          / n) ∧
      ensembleConfY r c n preds targets i j =
        |(∑ m ∈ Finset.range n, preds m i j) / n - targets i j|) := by
  have hn0 : n ≠ 0 := by omega
  refine ⟨⟨by decide, by decide, by decide⟩, ?_⟩
  intro i j
  constructor
  · unfold ensembleConfX npVarAxis2
    rw [mul_neg_one, neg_inj]
    have hA : ∀ m ∈ Finset.range n,
        allTestPreds r c n preds i j m = preds m i j := by
      intro m hm
      exact allTestPreds_entry r c n preds (by omega) i j m
        (Finset.mem_range.mp hm)
    have hsum : (∑ k ∈ Finset.range n, allTestPreds r c n preds i j k) =
        ∑ k ∈ Finset.range n, preds k i j := Finset.sum_congr rfl hA
    congr 1
    refine Finset.sum_congr rfl ?_
    intro m hm
    rw [hA m hm, hsum]
  · unfold ensembleConfY avgTestPreds
    rw [sumTestPreds_entry r c n preds (by omega) i j]

/-- Witness for `confidence_dispatch_ensemble_variance`: two models on one
test molecule and task. -/
theorem confidence_dispatch_ensemble_variance_witness :
    (regressionConfBranch (some "gaussian") "regression" =
        ConfBranch.gaussianBranch ∧
      regressionConfBranch (some "tanimoto") "regression" =
        ConfBranch.tanimotoBranch ∧
      regressionConfBranch (some "ensemble") "regression" =
        ConfBranch.ensembleBranch) ∧
    (∀ (i : Fin 1) (j : Fin 1),
      ensembleConfX 1 1 2 (fun m _ _ => 2 * m + 1) i j =
        -((∑ m ∈ Finset.range 2,
            ((2 * (m : ℚ) + 1) -
              (∑ k ∈ Finset.range 2, (2 * (k : ℚ) + 1)) / 2) ^ 2) / 2) ∧
      ensembleConfY 1 1 2 (fun m _ _ => 2 * m + 1) (fun _ _ => 5) i j =
        |(∑ m ∈ Finset.range 2, (2 * (m : ℚ) + 1)) / 2 - 5|) :=
  confidence_dispatch_ensemble_variance 1 1 2 (fun m _ _ => 2 * m + 1)
    (fun _ _ => 5) (by decide) (by decide)

/-! ## `run_training`: the `sum_last_hidden` accumulators (run_training.py)

The accumulators are created only under `if args.confidence == "gaussian":`
(lines 176-180).  Inside the ensemble loop they are accumulated under the
same `gaussian` test.  The regression diagnostics read them only inside the
`'gaussian'` branch, but the classification diagnostics block
(`if args.confidence and args.dataset_type == 'classification':`) reads them
for every truthy `args.confidence`. -/

/-- Whether `sum_last_hidden` / `sum_last_hidden_test` are created before the
ensemble loop: the guard `args.confidence == "gaussian"`. -/
def initsLastHidden (confidence : Option String) : Bool :=
  confidence == some "gaussian"

/-- Whether a confidence-diagnostics branch that reads `sum_last_hidden`
executes: the regression `'gaussian'` branch, or the classification block,
which requires only that `args.confidence` be truthy. -/
def readsLastHidden (confidence : Option String) (datasetType : String) :
    Bool :=
  (pyTruthy confidence && (datasetType == "regression") &&
      (confidence == some "gaussian")) ||
    (pyTruthy confidence && (datasetType == "classification"))

/-- Claim C5 fails on the code: with `args.confidence = 'ensemble'` and a
classification dataset the diagnostics branch reads `sum_last_hidden` even
though the accumulators are created only when `args.confidence` is
`'gaussian'` (a `NameError` at run time). -/
theorem classification_reads_undefined_accumulator :
    readsLastHidden (some "ensemble") "classification" = true ∧
      initsLastHidden (some "ensemble") = false ∧
      (∀ conf, initsLastHidden conf = true ↔ conf = some "gaussian") := by
  refine ⟨by decide, by decide, ?_⟩
  intro conf
  simp [initsLastHidden]

/-! ## `run_training`: target scaling (run_training.py)

    if args.dataset_type == 'regression':
        train_smiles, train_targets = train_data.smiles(), train_data.targets()
        scaler = StandardScaler().fit(train_targets)
        scaled_targets = scaler.transform(train_targets).tolist()
        train_data.set_targets(scaled_targets)
    else:
        scaler = None

Target matrices (rows = molecules, columns = tasks) are embedded as
functions into ℝ. -/

/-- Modelled from the spec: `StandardScaler` (from `chemprop.data`, an
out-of-scope data utility, not among the analysed sources) holds per-task
means and standard deviations. -/
structure TargetScaler (t : ℕ) where
  means : Fin t → ℝ
  stds : Fin t → ℝ

/-- Modelled from the spec: `StandardScaler().fit(targets)` computes each
task's mean and (population) standard deviation over the given target
matrix. -/
noncomputable def fitScaler {nr t : ℕ} (T : Fin nr → Fin t → ℝ) :
    TargetScaler t where
  means := fun j => (∑ i, T i j) / nr
  stds := fun j => Real.sqrt ((∑ i, (T i j - (∑ i', T i' j) / nr) ^ 2) / nr)

/-- Modelled from the spec: `scaler.transform` subtracts each task's mean and
divides by its standard deviation. -/
noncomputable def transformScaler {nr t : ℕ} (sc : TargetScaler t)
    (T : Fin nr → Fin t → ℝ) : Fin nr → Fin t → ℝ :=
  fun i j => (T i j - sc.means j) / sc.stds j

/-- The targets held by the three datasets of `run_training`. -/
structure DataTargets (nr nv ns t : ℕ) where
  trainT : Fin nr → Fin t → ℝ
  valT : Fin nv → Fin t → ℝ
  testT : Fin ns → Fin t → ℝ

/-- The scaling step of `run_training`: in regression runs, fit a scaler on
the training targets, standardise the training targets in place
(`train_data.set_targets(scaled_targets)`) and keep the scaler; otherwise
leave everything unchanged with `scaler = None`. -/
noncomputable def scaleStep {nr nv ns t : ℕ} (datasetType : String)
    (d : DataTargets nr nv ns t) :
    DataTargets nr nv ns t × Option (TargetScaler t) :=
  if datasetType == "regression" then
    ({ d with trainT := transformScaler (fitScaler d.trainT) d.trainT },
      some (fitScaler d.trainT))
  else (d, none)

/-- Claim C6: in regression runs exactly the training targets are replaced by
their standardisation under a scaler fitted on the training targets alone
(subtract the per-task training mean, divide by the per-task training
standard deviation); validation and test targets are untouched; and in
non-regression runs nothing is scaled and the scaler is `None`. -/
theorem target_scaling_frame (nr nv ns t : ℕ) (d : DataTargets nr nv ns t) :
    ((scaleStep "regression" d).2 = some (fitScaler d.trainT) ∧
      (∀ i j, (scaleStep "regression" d).1.trainT i j =
        (d.trainT i j - (∑ i', d.trainT i' j) / nr) /
          Real.sqrt
            ((∑ i', (d.trainT i' j - (∑ i'', d.trainT i'' j) / nr) ^ 2) /
              nr)) ∧
      (scaleStep "regression" d).1.valT = d.valT ∧
      (scaleStep "regression" d).1.testT = d.testT) ∧
    (∀ datasetType, datasetType ≠ "regression" →
      scaleStep datasetType d = (d, none)) := by
  refine ⟨⟨?_, ?_, ?_, ?_⟩, ?_⟩
  · simp [scaleStep]
  · intro i j
    simp [scaleStep, transformScaler, fitScaler]
  · simp [scaleStep]
  · simp [scaleStep]
  · intro datasetType hne
    simp [scaleStep, hne]

/-! ## `run_training`: the `'tanimoto'` confidence branch (run_training.py)

    train_smiles_sfp = [morgan_fingerprint(s) for s in train_smiles]
    for i in range(len(test_smiles)):
        fp = morgan_fingerprint(smiles)
        morgan_sim = []
        for sfp in train_smiles_sfp:
            tsim = np.dot(fp, sfp) / (fp.sum() + sfp.sum() - np.dot(fp, sfp))
            morgan_sim.append((tsim, np.abs(avg_test_preds[i] - test_targets[i][0])))
        morgan_sim, error = max(morgan_sim, key=lambda x: x[0])
        x.append(morgan_sim)
        ...
    x = np.array(x) * 10

`morgan_fingerprint` (with `use_counts=False`) returns a 1-D 0/1 bit array,
embedded as a `List ℚ` all of whose entries are `0` or `1`. -/

/-- `np.dot` of two 1-D arrays. -/
def npDot (a b : List ℚ) : ℚ := (List.zipWith (· * ·) a b).sum

/-- `npDot` on cons cells. -/
theorem npDot_cons (x y : ℚ) (xs ys : List ℚ) :
    npDot (x :: xs) (y :: ys) = x * y + npDot xs ys := by
  simp [npDot]

/-- The similarity computed for one training fingerprint:
`np.dot(fp, sfp) / (fp.sum() + sfp.sum() - np.dot(fp, sfp))`. -/
def tanimotoSim (fp sfp : List ℚ) : ℚ :=
  npDot fp sfp / (fp.sum + sfp.sum - npDot fp sfp)

/-- Python `max(hd :: tl, key=lambda x: x[0])`: the first pair with maximal
first component. -/
def pyMaxByFst (hd : ℚ × ℚ) (tl : List (ℚ × ℚ)) : ℚ × ℚ :=
  tl.foldl (fun acc p => if acc.1 < p.1 then p else acc) hd

/-- The confidence value appended to `x` for one test molecule, after the
final scaling: the `morgan_sim` list of `(tsim, error)` pairs over the
training fingerprints, its `max(..., key=lambda x: x[0])`, the first
component, times 10.  (`max` of an empty `morgan_sim` raises in Python; the
`[]` case is unreachable for a non-empty training set.) -/
def tanimotoConfValue (fp : List ℚ) (sfps : List (List ℚ))
    (err : List ℚ → ℚ) : ℚ :=
  match sfps with
  | [] => 0
  | s0 :: rest =>
    (pyMaxByFst (tanimotoSim fp s0, err s0)
      (rest.map (fun sfp => (tanimotoSim fp sfp, err sfp)))).1 * 10

/-- `np.dot` of elementwise-nonnegative vectors is nonnegative. -/
theorem npDot_nonneg (fp : List ℚ) :
    ∀ (sfp : List ℚ), (∀ x ∈ fp, 0 ≤ x) → (∀ y ∈ sfp, 0 ≤ y) →
      0 ≤ npDot fp sfp := by
  induction fp with
  | nil => intro sfp _ _; simp [npDot]
  | cons x xs ih =>
    intro sfp ha hb
    cases sfp with
    | nil => simp [npDot]
    | cons y ys =>
      rw [npDot_cons]
      have h1 : 0 ≤ x * y := mul_nonneg (ha x (by simp)) (hb y (by simp))
      have h2 := ih ys (fun a haa => ha a (by simp [haa]))
        (fun b hbb => hb b (by simp [hbb]))
      linarith

/-- `np.dot(fp, sfp) ≤ fp.sum()` when `fp` is nonnegative and `sfp` is
bounded by one. -/
theorem npDot_le_sum_left (fp : List ℚ) :
    ∀ (sfp : List ℚ), (∀ x ∈ fp, 0 ≤ x) → (∀ y ∈ sfp, y ≤ 1) →
      npDot fp sfp ≤ fp.sum := by
  induction fp with
  | nil => intro sfp _ _; simp [npDot]
  | cons x xs ih =>
    intro sfp ha hb
    cases sfp with
    | nil =>
      have h := List.sum_nonneg ha
      simpa [npDot] using h
    | cons y ys =>
      rw [npDot_cons, List.sum_cons]
      have h1 : x * y ≤ x :=
        mul_le_of_le_one_right (ha x (by simp)) (hb y (by simp))
      have h2 := ih ys (fun a haa => ha a (by simp [haa]))
        (fun b hbb => hb b (by simp [hbb]))
      linarith

/-- `np.dot` is symmetric. -/
theorem npDot_comm (fp sfp : List ℚ) : npDot fp sfp = npDot sfp fp :=
  congrArg List.sum (List.zipWith_comm_of_comm _ mul_comm fp sfp)

/-- A nonnegative list containing the value `1` at some index (via Python
indexing `l[i]`, with out-of-range reads giving the default `0`) has sum at
least `1`. -/
theorem sum_ge_one_of_getD (l : List ℚ) (hl : ∀ x ∈ l, 0 ≤ x) (i : ℕ)
    (h : l.getD i 0 = 1) : 1 ≤ l.sum := by
  rcases lt_or_le i l.length with hlt | hge
  · have hmem : (1 : ℚ) ∈ l := by
      rw [List.getD_eq_getElem l 0 hlt] at h
      exact h ▸ List.getElem_mem hlt
    exact List.single_le_sum hl 1 hmem
  · rw [List.getD_eq_default l 0 hge] at h
    norm_num at h

/-- For 0/1 fingerprints whose union contains a set bit, the computed
similarity lies in `[0, 1]`. -/
theorem tanimotoSim_unit_interval (fp sfp : List ℚ)
    (hfp : ∀ x ∈ fp, x = 0 ∨ x = 1) (hsfp : ∀ x ∈ sfp, x = 0 ∨ x = 1)
    (hu : ∃ i, fp.getD i 0 = 1 ∨ sfp.getD i 0 = 1) :
    0 ≤ tanimotoSim fp sfp ∧ tanimotoSim fp sfp ≤ 1 := by
  have hfp0 : ∀ x ∈ fp, 0 ≤ x := by
    intro x hx; rcases hfp x hx with h | h <;> simp [h]
  have hfp1 : ∀ x ∈ fp, x ≤ 1 := by
    intro x hx; rcases hfp x hx with h | h <;> simp [h]
  have hsfp0 : ∀ x ∈ sfp, 0 ≤ x := by
    intro x hx; rcases hsfp x hx with h | h <;> simp [h]
  have hsfp1 : ∀ x ∈ sfp, x ≤ 1 := by
    intro x hx; rcases hsfp x hx with h | h <;> simp [h]
  have hd0 : 0 ≤ npDot fp sfp := npDot_nonneg fp sfp hfp0 hsfp0
  have hdl : npDot fp sfp ≤ fp.sum := npDot_le_sum_left fp sfp hfp0 hsfp1
  have hdr : npDot fp sfp ≤ sfp.sum := by
    rw [npDot_comm]
    exact npDot_le_sum_left sfp fp hsfp0 hfp1
  have hden : 1 ≤ fp.sum + sfp.sum - npDot fp sfp := by
    rcases hu with ⟨i, hi | hi⟩
    · have h1 : 1 ≤ fp.sum := sum_ge_one_of_getD fp hfp0 i hi
      linarith
    · have h1 : 1 ≤ sfp.sum := sum_ge_one_of_getD sfp hsfp0 i hi
      linarith
  unfold tanimotoSim
  constructor
  · exact div_nonneg hd0 (by linarith)
  · rw [div_le_one (by linarith)]
    linarith

/-- `max(..., key=lambda x: x[0])` returns an element of the list. -/
theorem pyMaxByFst_mem :
    ∀ (tl : List (ℚ × ℚ)) (hd : ℚ × ℚ),
      pyMaxByFst hd tl = hd ∨ pyMaxByFst hd tl ∈ tl := by
  intro tl
  induction tl with
  | nil => intro hd; left; rfl
  | cons p ps ih =>
    intro hd
    unfold pyMaxByFst at ih ⊢
    rw [List.foldl_cons]
    rcases ih (if hd.1 < p.1 then p else hd) with h | h
    · by_cases hc : hd.1 < p.1
      · right; rw [h, if_pos hc]; simp
      · left; rw [h, if_neg hc]
    · right; simp [h]

/-- Claim C8: in the `'tanimoto'` branch, every similarity computed against a
0/1 training fingerprint sharing at least one set bit in the union lies in
`[0, 1]`, and consequently the confidence value appended to `x` (the maximal
similarity over a non-empty training set, scaled by 10) lies in `[0, 10]`. -/
theorem tanimoto_confidence_range (fp : List ℚ) (sfps : List (List ℚ))
    (err : List ℚ → ℚ)
    (hfp : ∀ x ∈ fp, x = 0 ∨ x = 1)
    (hsfps : ∀ sfp ∈ sfps, ∀ x ∈ sfp, x = 0 ∨ x = 1)
    (hunion : ∀ sfp ∈ sfps, ∃ i, fp.getD i 0 = 1 ∨ sfp.getD i 0 = 1)
    (hne : sfps ≠ []) :
    (∀ sfp ∈ sfps, 0 ≤ tanimotoSim fp sfp ∧ tanimotoSim fp sfp ≤ 1) ∧
      0 ≤ tanimotoConfValue fp sfps err ∧
      tanimotoConfValue fp sfps err ≤ 10 := by
  have hpair : ∀ sfp ∈ sfps,
      0 ≤ tanimotoSim fp sfp ∧ tanimotoSim fp sfp ≤ 1 := by
    intro sfp hs
    exact tanimotoSim_unit_interval fp sfp hfp (hsfps sfp hs) (hunion sfp hs)
  refine ⟨hpair, ?_⟩
  cases sfps with
  | nil => exact absurd rfl hne
  | cons s0 rest =>
    have hred : tanimotoConfValue fp (s0 :: rest) err =
        (pyMaxByFst (tanimotoSim fp s0, err s0)
          (rest.map (fun sfp => (tanimotoSim fp sfp, err sfp)))).1 * 10 := rfl
    rw [hred]
    have hm := pyMaxByFst_mem
      (rest.map (fun sfp => (tanimotoSim fp sfp, err sfp)))
      (tanimotoSim fp s0, err s0)
    have hfst :
        0 ≤ (pyMaxByFst (tanimotoSim fp s0, err s0)
            (rest.map (fun sfp => (tanimotoSim fp sfp, err sfp)))).1 ∧
          (pyMaxByFst (tanimotoSim fp s0, err s0)
            (rest.map (fun sfp => (tanimotoSim fp sfp, err sfp)))).1 ≤ 1 := by
      rcases hm with h | h
      · rw [h]
        exact hpair s0 (by simp)
      · obtain ⟨s, hs, he⟩ := List.mem_map.mp h
        rw [← he]
        exact hpair s (by simp [hs])
    constructor
    · nlinarith [hfst.1]
    · nlinarith [hfst.2]

/-- Witness for `tanimoto_confidence_range`: the test fingerprint `[1, 0]`
against the single training fingerprint `[1, 1]`. -/
theorem tanimoto_confidence_range_witness :
    (∀ sfp ∈ [[(1 : ℚ), 1]],
      0 ≤ tanimotoSim [1, 0] sfp ∧ tanimotoSim [1, 0] sfp ≤ 1) ∧
      0 ≤ tanimotoConfValue [1, 0] [[1, 1]] (fun _ => 0) ∧
      tanimotoConfValue [1, 0] [[1, 1]] (fun _ => 0) ≤ 10 :=
  tanimoto_confidence_range [1, 0] [[1, 1]] (fun _ => 0)
    (by decide)
    (by decide)
    (by
      intro sfp hs
      exact ⟨0, Or.inl rfl⟩)
    (by simp)

/-! ## `cal_pccs` (pred_r2.py)

    n = len(x)
    sum_xy = np.sum(np.sum(x*y)); sum_x = np.sum(np.sum(x)); ...
    pcc = (n*sum_xy-sum_x*sum_y) /
          np.sqrt((n*sum_x2-sum_x*sum_x)*(n*sum_y2-sum_y*sum_y))

Vectors of length `n` are embedded as `Fin n → ℝ` and the numpy sums as
finite sums. -/

/-- `cal_pccs` of `pred_r2.py`: the sum-based Pearson correlation formula. -/
noncomputable def cal_pccs (n : ℕ) (x y : Fin n → ℝ) : ℝ :=
  (n * (∑ i, x i * y i) - (∑ i, x i) * (∑ i, y i)) /
    Real.sqrt ((n * (∑ i, x i * x i) - (∑ i, x i) * (∑ i, x i)) *
      (n * (∑ i, y i * y i) - (∑ i, y i) * (∑ i, y i)))

/-- The textbook mean-centered Pearson correlation coefficient named by the
claim:
`sum((xᵢ-mean x)(yᵢ-mean y)) / sqrt(sum((xᵢ-mean x)²) * sum((yᵢ-mean y)²))`. -/
noncomputable def pearsonMeanCentered (n : ℕ) (x y : Fin n → ℝ) : ℝ :=
  (∑ i, (x i - (∑ j, x j) / n) * (y i - (∑ j, y j) / n)) /
    Real.sqrt ((∑ i, (x i - (∑ j, x j) / n) ^ 2) *
      (∑ i, (y i - (∑ j, y j) / n) ^ 2))

/-- The centering identity behind the two Pearson formulas: for `n ≠ 0`,
`∑ (xᵢ - mean x)(yᵢ - mean y) = ∑ xᵢyᵢ - (∑x)(∑y)/n`. -/
theorem centered_prod_sum (n : ℕ) (hn : (n : ℝ) ≠ 0) (x y : Fin n → ℝ) :
    ∑ i, (x i - (∑ j, x j) / n) * (y i - (∑ j, y j) / n) =
      ∑ i, x i * y i - (∑ j, x j) * (∑ j, y j) / n := by
  have hexp : ∀ i : Fin n,
      (x i - (∑ j, x j) / n) * (y i - (∑ j, y j) / n) =
        x i * y i - ((∑ j, y j) / n) * x i - ((∑ j, x j) / n) * y i +
          ((∑ j, x j) / n) * ((∑ j, y j) / n) := by
    intro i; ring
  rw [Finset.sum_congr rfl fun i _ => hexp i]
  rw [Finset.sum_add_distrib, Finset.sum_sub_distrib, Finset.sum_sub_distrib,
    ← Finset.mul_sum, ← Finset.mul_sum, Finset.sum_const, Finset.card_univ,
    Fintype.card_fin, nsmul_eq_mul]
  field_simp
  ring

/-- Claim C9: for vectors of length `n ≥ 2` with nonzero variance in each,
the sum-based formula of `cal_pccs` equals the textbook mean-centered
Pearson correlation coefficient. -/
theorem cal_pccs_eq_mean_centered (n : ℕ) (x y : Fin n → ℝ) (hn : 2 ≤ n)
    (hx : (∑ i, (x i - (∑ j, x j) / n) ^ 2) ≠ 0)
    (hy : (∑ i, (y i - (∑ j, y j) / n) ^ 2) ≠ 0) :
    cal_pccs n x y = pearsonMeanCentered n x y := by
  have hn0 : (n : ℝ) ≠ 0 := by
    have : (0 : ℝ) < n := by exact_mod_cast Nat.lt_of_lt_of_le Nat.zero_lt_two hn
    linarith
  have hsqx : ∀ i : Fin n,
      (x i - (∑ j, x j) / n) ^ 2 =
        (x i - (∑ j, x j) / n) * (x i - (∑ j, x j) / n) := fun i => sq (x i - _) ▸ by ring
  have hA := centered_prod_sum n hn0 x y
  have hB : (∑ i, (x i - (∑ j, x j) / n) ^ 2) =
      ∑ i, x i * x i - (∑ j, x j) * (∑ j, x j) / n := by
    rw [Finset.sum_congr rfl fun i _ => hsqx i]
    exact centered_prod_sum n hn0 x x
  have hsqy : ∀ i : Fin n,
      (y i - (∑ j, y j) / n) ^ 2 =
        (y i - (∑ j, y j) / n) * (y i - (∑ j, y j) / n) := fun i => by ring
  have hC : (∑ i, (y i - (∑ j, y j) / n) ^ 2) =
      ∑ i, y i * y i - (∑ j, y j) * (∑ j, y j) / n := by
    rw [Finset.sum_congr rfl fun i _ => hsqy i]
    exact centered_prod_sum n hn0 y y
  have hBnn : 0 ≤ ∑ i, (x i - (∑ j, x j) / n) ^ 2 :=
    Finset.sum_nonneg fun i _ => sq_nonneg _
  have hCnn : 0 ≤ ∑ i, (y i - (∑ j, y j) / n) ^ 2 :=
    Finset.sum_nonneg fun i _ => sq_nonneg _
  have hnum : (n : ℝ) * (∑ i, x i * y i) - (∑ i, x i) * (∑ i, y i) =
      n * ∑ i, (x i - (∑ j, x j) / n) * (y i - (∑ j, y j) / n) := by
    rw [hA]
    field_simp
    ring
  have hdenx : (n : ℝ) * (∑ i, x i * x i) - (∑ i, x i) * (∑ i, x i) =
      n * ∑ i, (x i - (∑ j, x j) / n) ^ 2 := by
    rw [hB]
    field_simp
    ring
  have hdeny : (n : ℝ) * (∑ i, y i * y i) - (∑ i, y i) * (∑ i, y i) =
      n * ∑ i, (y i - (∑ j, y j) / n) ^ 2 := by
    rw [hC]
    field_simp
    ring
  unfold cal_pccs pearsonMeanCentered
  rw [hnum, hdenx, hdeny]
  have hprod : (n : ℝ) * (∑ i, (x i - (∑ j, x j) / n) ^ 2) *
      ((n : ℝ) * ∑ i, (y i - (∑ j, y j) / n) ^ 2) =
      (n : ℝ) ^ 2 * ((∑ i, (x i - (∑ j, x j) / n) ^ 2) *
        ∑ i, (y i - (∑ j, y j) / n) ^ 2) := by ring
  rw [hprod, Real.sqrt_mul (sq_nonneg ((n : ℝ))),
    Real.sqrt_sq (by positivity : (0 : ℝ) ≤ (n : ℝ))]
  exact mul_div_mul_left _ _ hn0

/-- Witness for `cal_pccs_eq_mean_centered`: the vectors `(0, 1)` and
`(0, 2)`, each of nonzero variance. -/
theorem cal_pccs_eq_mean_centered_witness :
    cal_pccs 2 ![0, 1] ![0, 2] = pearsonMeanCentered 2 ![0, 1] ![0, 2] :=
  cal_pccs_eq_mean_centered 2 ![0, 1] ![0, 2] (by norm_num)
    (by
      rw [Fin.sum_univ_two, Fin.sum_univ_two]
      norm_num)
    (by
      rw [Fin.sum_univ_two, Fin.sum_univ_two]
      norm_num)

end Chemprop
